import Mathlib

/-!
# Verification of the CorrelatedCounts estimation engine (`ccount/core.py`)

This file is a shallow embedding, over the rationals, of the class
`CorrelatedModel` from `src/ccount/core.py`, together with proofs of the
specification claims about it.

Modelling conventions:
* numpy arrays are total functions from (unbounded) natural indices to `ℚ`,
  with the relevant dimensions carried separately (`XB.rows`, `XB.cols`,
  `CModel.m`, `CModel.n`, `CModel.l`, `CModel.d`, ...);
* group identifiers are integers (`ℤ`), as in the source (`group_id.dtype == int`);
* `np.argsort` is modelled by `argsort`, an executable sorting of the index
  list `[0, ..., m-1]` by key (ties broken by index);
* `np.unique(..., return_counts=True)` is modelled by `npUniqueVals` (sort,
  then deduplicate) together with `List.count`;
* `np.repeat(U, group_sizes, axis=1)` is modelled by the index map `repeatIdx`;
* boolean-mask assignment `a[mask] = vals` (used for `indices_u` in
  `compute_new_P`) is modelled by `assignMasked`;
* the inverse link functions `g[k]`, the elementwise negative log likelihood
  `f` and `np.linalg.pinv` are opaque function parameters, exactly as they are
  black-box collaborators of the engine;
* the spline path (`spline_specs is not None`) is not modelled: every claim
  below concerns the `spline_specs=None` path, and splines are an external
  collaborator that is out of scope of the specification core.
-/

namespace CCount

/-- A list-of-lists covariate container `X[k][j]`: an `rows × cols k j` matrix
for every distribution parameter `k` and outcome `j`. -/
structure XB where
  rows : ℕ
  cols : ℕ → ℕ → ℕ
  entry : ℕ → ℕ → ℕ → ℕ → ℚ

/-- The ordering on indices used to model `np.argsort` with key `key`:
compare keys, break ties by index. -/
def keyOrder (key : ℕ → ℤ) (i j : ℕ) : Prop :=
  key i < key j ∨ (key i = key j ∧ i ≤ j)

instance keyOrder.decRel (key : ℕ → ℤ) : DecidableRel (keyOrder key) := fun i j => by
  unfold keyOrder; infer_instance

/-- Model of `np.argsort(key over [0..m-1])`: the index list `[0, ..., m-1]`
sorted by key.  The result is some permutation of `[0..m-1]` ordered by
ascending key, which is all the source relies on. -/
def argsort (key : ℕ → ℤ) (m : ℕ) : List ℕ :=
  (List.range m).insertionSort (keyOrder key)

/-- Model of the values component of `np.unique`: sort, then remove
duplicates.  The counts component is `List.count` over the input. -/
def npUniqueVals (xs : List ℤ) : List ℤ :=
  (xs.insertionSort (· ≤ ·)).dedup

/-- Index map of `np.repeat(U, sizes, axis=1)`: row `i` of the repeated array
is row `repeatIdx sizes i` of the original array. -/
def repeatIdx : List ℕ → ℕ → ℕ
  | [], _ => 0
  | s :: rest, i => if i < s then 0 else repeatIdx rest (i - s) + 1

/-- Model of numpy boolean-mask assignment
`out = np.full(mask.shape, dflt); out[mask] = vals`:
positions where the mask is `true` receive successive elements of `vals`,
the rest receive `dflt`. -/
def assignMasked (dflt : ℕ) : List Bool → List ℕ → List ℕ
  | [], _ => []
  | b :: rest, vs =>
    if b then vs.headD dflt :: assignMasked dflt rest vs.tail
    else dflt :: assignMasked dflt rest vs

/-- The state of a `CorrelatedModel` instance: the fields of the Python
object after `__init__` has run. -/
structure CModel where
  m : ℕ
  n : ℕ
  l : ℕ
  d : ℕ → ℕ → ℕ
  Y : ℕ → ℕ → ℚ
  X : XB
  W : ℕ → ℕ → ℚ
  offset : ℕ → ℕ → ℚ
  group_id : ℕ → ℤ
  unique_group_id : List ℤ
  group_sizes : List ℕ
  num_groups : ℕ
  beta : ℕ → ℕ → ℕ → ℚ
  U : ℕ → ℕ → ℕ → ℚ
  D : ℕ → ℕ → ℕ → ℚ
  P : ℕ → ℕ → ℕ → ℚ
  g : ℕ → ℚ → ℚ
  f : ℚ → (ℕ → ℚ) → ℚ
  add_intercepts : Bool
  ci : ℕ
  X_mean : ℕ → ℕ → ℕ → ℚ
  X_std : ℕ → ℕ → ℕ → ℚ
  meanOutcome : Option ((ℕ → ℕ → ℕ → ℚ) → (ℕ → ℕ → ℚ))

/-- Embedding of `CorrelatedModel.compute_P` (core.py lines 339-376), with
`beta` and `U` passed explicitly (the source defaults them to `self.beta`,
`self.U`; callers below resolve the defaults the way the source does).

The chain mirrors the source:
`P = np.array([X[k][j].dot(beta[k][j]) for k in range(l) for j in range(n)])`
(flat row `a = k * n + j`), `P.reshape((l, n, m)).transpose(0, 2, 1)`,
`U = np.repeat(U, group_sizes, axis=1)`, `P = P + U`, `P[k] = g[k](P[k])`,
`P[k] = P[k] * offset[k]`. -/
def computeP (M : CModel) (X : XB) (m : ℕ) (group_sizes : List ℕ)
    (offset : ℕ → ℕ → ℚ) (beta : ℕ → ℕ → ℕ → ℚ) (U : ℕ → ℕ → ℕ → ℚ) :
    ℕ → ℕ → ℕ → ℚ :=
  let flat : ℕ → ℕ → ℚ := fun a i =>
    ∑ t ∈ Finset.range (X.cols (a / M.n) (a % M.n)),
      X.entry (a / M.n) (a % M.n) i t * beta (a / M.n) (a % M.n) t
  let PT : ℕ → ℕ → ℕ → ℚ := fun k i j => flat (k * M.n + j) i
  let PU : ℕ → ℕ → ℕ → ℚ := fun k i j => PT k i j + U k (repeatIdx group_sizes i) j
  fun k i j => M.g k (PU k i j) * offset k i

/-- Embedding of `CorrelatedModel.compute_new_P` (core.py lines 536-585).
Every `let` mirrors one statement of the source; `Uapp` is the result of
`np.append(self.U, zeros, axis=1)` (row `num_groups` is the synthetic zero
row), and `indices_u` is the `np.full` / boolean-mask assignment. -/
def computeNewP (M : CModel) (X : XB) (group_id : ℕ → ℤ) (mnew : ℕ)
    (offset : ℕ → ℕ → ℚ) : ℕ → ℕ → ℕ → ℚ :=
  let sort_id : List ℕ := argsort group_id mnew
  let reverse_sort_id : List ℕ := argsort (fun i => ((sort_id.getD i 0 : ℕ) : ℤ)) mnew
  let sorted_ids : List ℤ := sort_id.map group_id
  let offsets : ℕ → ℕ → ℚ := fun k p => offset k (sort_id.getD p 0)
  let sortedX : XB := ⟨X.rows, X.cols, fun k j p t => X.entry k j (sort_id.getD p 0) t⟩
  let present_groups : List ℤ := npUniqueVals sorted_ids
  let group_sizes : List ℕ := present_groups.map (fun v => sorted_ids.count v)
  let group_indices : List ℕ := (List.range M.unique_group_id.length).filter
      (fun a => decide (M.unique_group_id.getD a 0 ∈ present_groups))
  let existing_random_effects : List Bool :=
    present_groups.map (fun v => decide (v ∈ M.unique_group_id))
  let Uapp : ℕ → ℕ → ℕ → ℚ := fun k a j => if a < M.num_groups then M.U k a j else 0
  let indices_u : List ℕ := assignMasked M.num_groups existing_random_effects group_indices
  let Ugather : ℕ → ℕ → ℕ → ℚ := fun k q j => Uapp k (indices_u.getD q 0) j
  let Ps := computeP M sortedX mnew group_sizes offsets M.beta Ugather
  fun k i j => Ps k (reverse_sort_id.getD i 0) j

/-- Embedding of `CorrelatedModel.intercept_X`: prepend a constant-1 column
to every `(k, j)` covariate matrix. -/
def interceptX (X : XB) : XB :=
  ⟨X.rows, fun k j => X.cols k j + 1,
   fun k j i t => if t = 0 then 1 else X.entry k j i (t - 1)⟩

/-- Embedding of `CorrelatedModel.normalize_X`: columns from `ci` on are
centered by `mean` and scaled by `std`. -/
def normalizeX (ci : ℕ) (mean std : ℕ → ℕ → ℕ → ℚ) (X : XB) : XB :=
  ⟨X.rows, X.cols,
   fun k j i t => if t < ci then X.entry k j i t
    else (X.entry k j i t - mean k j t) / std k j t⟩

/-- Embedding of `CorrelatedModel.check_new_X` (core.py lines 513-534): the
shape assertions `X[k][j].shape == (len(group_id), self.d[k, j])`. -/
def checkNewX (M : CModel) (X : XB) (mnew : ℕ) : Bool :=
  decide (∀ k < M.l, ∀ j < M.n, X.rows = mnew ∧ X.cols k j = M.d k j)

/-- Embedding of `CorrelatedModel.neg_log_likelihood` (core.py lines 409-443).
`np.linalg.pinv` is the opaque parameter `pinv`; the three optional arguments
default to the fitted state exactly as in the source. -/
def negLogLikelihood (M : CModel) (pinv : (ℕ → ℕ → ℚ) → (ℕ → ℕ → ℚ))
    (betaArg UArg DArg : Option (ℕ → ℕ → ℕ → ℚ)) : ℚ :=
  let beta := betaArg.getD M.beta
  let U := UArg.getD M.U
  let D := DArg.getD M.D
  let P := computeP M M.X M.m M.group_sizes M.offset beta U
  let dataTerm : ℚ :=
    (∑ i ∈ Finset.range M.m, ∑ j ∈ Finset.range M.n,
      M.f (M.Y i j) (fun k => P k i j) * M.W i j) / (M.m : ℚ)
  dataTerm + ∑ k ∈ Finset.range M.l,
    (1 / 2) * ((∑ a ∈ Finset.range M.num_groups, ∑ j ∈ Finset.range M.n,
      (∑ j2 ∈ Finset.range M.n, U k a j2 * pinv (D k) j2 j) * U k a j) /
      (M.num_groups : ℚ))

/-- Embedding of `CorrelatedModel.predict` (core.py lines 593-644) on the
`spline_specs=None` path: add the intercept, normalize with the stored
statistics, default the group ids and offsets, run `check_new_X` (a failed
`assert` is an `AssertionError`), compute the new `P`, and apply the
mean-outcome capability (absent on the base class: `RuntimeError`). -/
def predict (M : CModel) (X : XB) (mnew : ℕ) (gidArg : Option (ℕ → ℤ))
    (offArg : Option (ℕ → Option (ℕ → ℚ))) : Except String (ℕ → ℕ → ℚ) :=
  let Xn : XB := normalizeX M.ci M.X_mean M.X_std (interceptX X)
  let gid : ℕ → ℤ := match gidArg with
    | none => fun i => (i : ℤ)
    | some gi => gi
  let off : ℕ → ℕ → ℚ := fun k => match offArg with
    | none => fun _ => 1
    | some os => match os k with
      | none => fun _ => 1
      | some ok => ok
  if checkNewX M Xn mnew then
    let P := computeNewP M Xn gid mnew off
    match M.meanOutcome with
    | none => .error "RuntimeError: mean_outcome must be over-written in a subclass"
    | some mo => .ok (mo P)
  else .error "AssertionError: check_new_X failed"

/-- State-passing form of `compute_new_P`: the source method only reads the
fields of `self` (`group_id.copy()`, `deepcopy(offset)`, `sort_X` deep-copies,
`np.append` and fancy indexing allocate fresh arrays), so the resulting model
state is the input state. -/
def computeNewPS (M : CModel) (X : XB) (group_id : ℕ → ℤ) (mnew : ℕ)
    (offset : ℕ → ℕ → ℚ) : CModel × (ℕ → ℕ → ℕ → ℚ) :=
  (M, computeNewP M X group_id mnew offset)

/-- State-passing form of `predict`: the source method performs no assignment
to any field of `self`. -/
def predictS (M : CModel) (X : XB) (mnew : ℕ) (gidArg : Option (ℕ → ℤ))
    (offArg : Option (ℕ → Option (ℕ → ℚ))) :
    CModel × Except String (ℕ → ℕ → ℚ) :=
  (M, predict M X mnew gidArg offArg)

/-- One run of the loop body of `CorrelatedModel.optimize_params`
(core.py lines 476-511), iterated `iters` times.  The block sub-minimizers
(`opt_interface.optimize_beta`, `optimize_U`, `compute_D`, from the external
`ccount.optimization` module) and `utils.relative_error` are opaque
parameters: with a block disabled they are never invoked, exactly as in the
source.  Python's `total_error = error / (optimize_beta + optimize_U +
compute_D)` raises `ZeroDivisionError` when the integer denominator is zero,
which the embedding makes explicit.  The objective report
(`self.neg_log_likelihood()`) is evaluated, and discarded, exactly where the
source logs it. -/
def optimizeParamsLoop (pinv : (ℕ → ℕ → ℚ) → (ℕ → ℕ → ℚ))
    (optBetaFn optUFn compDFn : CModel → CModel)
    (betaErr UErr DErr : CModel → CModel → ℚ)
    (optimize_beta optimize_U compute_D : Bool) (rel_tol : Option ℚ) :
    ℕ → CModel → Except String CModel
  | 0, M => .ok M
  | iters + 1, M =>
    let s1 : CModel × ℚ :=
      if optimize_beta then
        let M1 := optBetaFn M
        (M1, 0 + betaErr M M1)
      else (M, 0)
    let s2 : CModel × ℚ :=
      if optimize_U then
        let M2 := optUFn s1.1
        (M2, s1.2 + UErr s1.1 M2)
      else s1
    let s3 : CModel × ℚ :=
      if compute_D then
        let M3 := compDFn s2.1
        (M3, s2.2 + DErr s2.1 M3)
      else s2
    let denom : ℕ := (if optimize_beta then 1 else 0) + (if optimize_U then 1 else 0) +
      (if compute_D then 1 else 0)
    if denom = 0 then .error "ZeroDivisionError: division by zero"
    else
      let total_error : ℚ := s3.2 / (denom : ℚ)
      let recurse : Except String CModel :=
        let _obj := negLogLikelihood s3.1 pinv none none none
        optimizeParamsLoop pinv optBetaFn optUFn compDFn betaErr UErr DErr
          optimize_beta optimize_U compute_D rel_tol iters s3.1
      match rel_tol with
      | some tol => if total_error ≤ tol then .ok s3.1 else recurse
      | none => recurse

/-- Embedding of `CorrelatedModel.optimize_params`: run up to `max_iters`
iterations of the block-coordinate loop. -/
def optimizeParams (M : CModel) (pinv : (ℕ → ℕ → ℚ) → (ℕ → ℕ → ℚ))
    (optBetaFn optUFn compDFn : CModel → CModel)
    (betaErr UErr DErr : CModel → CModel → ℚ)
    (max_iters : ℕ) (optimize_beta optimize_U compute_D : Bool)
    (rel_tol : Option ℚ) : Except String CModel :=
  optimizeParamsLoop pinv optBetaFn optUFn compDFn betaErr UErr DErr
    optimize_beta optimize_U compute_D rel_tol max_iters M

/-- Embedding of `CorrelatedModel.__init__` (core.py lines 54-219) on the
`spline_specs=None`, `normalize_X=False` path (the disabled-normalization
branch stores `mean = 0`, `std = 1`, making `normalize_X` the identity; the
enabled branch computes a floating-point standard deviation, which has no
rational counterpart and is not needed by any claim below).  Defaults,
intercept augmentation, sorting by group id, and the derivation of
`unique_group_id` / `group_sizes` / `num_groups` follow the source
statement by statement. -/
def mkModel (m n l : ℕ) (d0 : ℕ → ℕ → ℕ) (Y : ℕ → ℕ → ℚ) (X0 : XB)
    (g : ℕ → ℚ → ℚ) (f : ℚ → (ℕ → ℚ) → ℚ)
    (gidArg : Option (ℕ → ℤ)) (offArg : Option (ℕ → Option (ℕ → ℚ)))
    (wArg : Option (ℕ → ℕ → ℚ)) (add_intercepts : Bool) : CModel :=
  let group_id0 : ℕ → ℤ := match gidArg with
    | none => fun i => (i : ℤ)
    | some gi => gi
  let offset0 : ℕ → ℕ → ℚ := fun k => match offArg with
    | none => fun _ => 1
    | some os => match os k with
      | none => fun _ => 1
      | some ok => ok
  let W0 : ℕ → ℕ → ℚ := wArg.getD (fun _ _ => 1)
  let X1 : XB := if add_intercepts then interceptX X0 else X0
  let d1 : ℕ → ℕ → ℕ := if add_intercepts then (fun k j => d0 k j + 1) else d0
  let ci : ℕ := if add_intercepts then 1 else 0
  let Xmean : ℕ → ℕ → ℕ → ℚ := fun _ _ _ => 0
  let Xstd : ℕ → ℕ → ℕ → ℚ := fun _ _ _ => 1
  let X2 : XB := normalizeX ci Xmean Xstd X1
  let sort_id : List ℕ := argsort group_id0 m
  let sorted_ids : List ℤ := sort_id.map group_id0
  let ugid : List ℤ := npUniqueVals sorted_ids
  let gsizes : List ℕ := ugid.map (fun v => sorted_ids.count v)
  { m := m
    n := n
    l := l
    d := d1
    Y := fun p j => Y (sort_id.getD p 0) j
    X := ⟨X2.rows, X2.cols, fun k j p t => X2.entry k j (sort_id.getD p 0) t⟩
    W := fun p j => W0 (sort_id.getD p 0) j
    offset := fun k p => offset0 k (sort_id.getD p 0)
    group_id := fun p => group_id0 (sort_id.getD p 0)
    unique_group_id := ugid
    group_sizes := gsizes
    num_groups := ugid.length
    beta := fun _ _ _ => 0
    U := fun _ _ _ => 0
    D := fun _ a b => if a = b then 1 else 0
    P := fun _ _ _ => 0
    g := g
    f := f
    add_intercepts := add_intercepts
    ci := ci
    X_mean := Xmean
    X_std := Xstd
    meanOutcome := none }

/-! ## Supporting lemmas: indexing with defaults -/

theorem getD_of_lt {α : Type} (l : List α) (d : α) {i : ℕ} (h : i < l.length) :
    l.getD i d = l.get ⟨i, h⟩ := by
  rw [List.getD_eq_getElem?_getD, List.getElem?_eq_getElem h]
  rfl

theorem getD_mem_of_lt {α : Type} (l : List α) (d : α) {i : ℕ} (h : i < l.length) :
    l.getD i d ∈ l := by
  rw [getD_of_lt l d h]
  exact List.get_mem l i h

theorem getD_map_of_lt {α β : Type} (f : α → β) (l : List α) (d : β) (e : α) {i : ℕ}
    (h : i < l.length) : (l.map f).getD i d = f (l.getD i e) := by
  have h2 : i < (l.map f).length := by
    rw [List.length_map]; exact h
  rw [getD_of_lt _ _ h2, getD_of_lt _ _ h]
  simp

theorem getD_range_of_lt (d : ℕ) {i m : ℕ} (h : i < m) :
    (List.range m).getD i d = i := by
  have h2 : i < (List.range m).length := by
    rw [List.length_range]; exact h
  rw [getD_of_lt _ _ h2]
  simp

/-! ## Supporting lemmas: `argsort` -/

theorem keyOrder_total (key : ℕ → ℤ) : ∀ a b : ℕ, keyOrder key a b ∨ keyOrder key b a := by
  intro a b
  rcases lt_trichotomy (key a) (key b) with h | h | h
  · exact Or.inl (Or.inl h)
  · rcases Nat.le_total a b with hab | hab
    · exact Or.inl (Or.inr ⟨h, hab⟩)
    · exact Or.inr (Or.inr ⟨h.symm, hab⟩)
  · exact Or.inr (Or.inl h)

theorem keyOrder_trans (key : ℕ → ℤ) : ∀ a b c : ℕ,
    keyOrder key a b → keyOrder key b c → keyOrder key a c := by
  intro a b c hab hbc
  rcases hab with h1 | ⟨h1, h1'⟩
  · rcases hbc with h2 | ⟨h2, _⟩
    · exact Or.inl (h1.trans h2)
    · exact Or.inl (h2 ▸ h1)
  · rcases hbc with h2 | ⟨h2, h2'⟩
    · exact Or.inl (h1 ▸ h2)
    · exact Or.inr ⟨h1.trans h2, h1'.trans h2'⟩

theorem argsort_perm (key : ℕ → ℤ) (m : ℕ) : List.Perm (argsort key m) (List.range m) :=
  List.perm_insertionSort _ _

theorem argsort_length (key : ℕ → ℤ) (m : ℕ) : (argsort key m).length = m := by
  rw [(argsort_perm key m).length_eq, List.length_range]

theorem argsort_sorted (key : ℕ → ℤ) (m : ℕ) :
    (argsort key m).Sorted (keyOrder key) := by
  haveI : IsTotal ℕ (keyOrder key) := ⟨keyOrder_total key⟩
  haveI : IsTrans ℕ (keyOrder key) := ⟨keyOrder_trans key⟩
  exact List.sorted_insertionSort _ _

theorem argsort_getD_lt (key : ℕ → ℤ) {m i : ℕ} (h : i < m) :
    (argsort key m).getD i 0 < m := by
  have hmem : (argsort key m).getD i 0 ∈ argsort key m :=
    getD_mem_of_lt _ _ (by rw [argsort_length]; exact h)
  have := (argsort_perm key m).mem_iff.mp hmem
  exact List.mem_range.mp this

theorem map_getD_range {α : Type} (p : List α) (d : α) :
    (List.range p.length).map (fun x => p.getD x d) = p := by
  apply List.ext_get
  · rw [List.length_map, List.length_range]
  · intro i h1 h2
    have hi : i < p.length := by
      rw [List.length_map, List.length_range] at h1; exact h1
    have : (List.range p.length).get ⟨i, by rw [List.length_range]; exact hi⟩ = i := by
      simp
    simp only [List.get_map]
    rw [this, getD_of_lt p d hi]

theorem sorted_map_of_sorted_keyOrder {key : ℕ → ℤ} {q : List ℕ}
    (hs : q.Sorted (keyOrder key)) : (q.map key).Sorted (· ≤ ·) := by
  refine List.Pairwise.map _ ?_ hs
  intro a b hab
  rcases hab with h | ⟨h, _⟩
  · exact le_of_lt h
  · exact le_of_eq h

theorem argsort_nat_inverse (p : List ℕ) {m : ℕ} (hp : List.Perm p (List.range m))
    {i : ℕ} (hi : i < m) :
    p.getD ((argsort (fun x => ((p.getD x 0 : ℕ) : ℤ)) m).getD i 0) 0 = i := by
  set key : ℕ → ℤ := fun x => ((p.getD x 0 : ℕ) : ℤ) with hkey
  set q : List ℕ := argsort key m with hq
  have hplen : p.length = m := by rw [hp.length_eq, List.length_range]
  have hL : q.map (fun x => p.getD x 0) = List.range m := by
    have hperm : List.Perm (q.map (fun x => p.getD x 0)) (List.range m) := by
      have h1 : List.Perm (q.map (fun x => p.getD x 0)) ((List.range m).map (fun x => p.getD x 0)) :=
        (argsort_perm key m).map _
      have h2 : (List.range m).map (fun x => p.getD x 0) = p := by
        rw [← hplen]; exact map_getD_range p 0
      exact h2 ▸ h1 |>.trans hp
    have hsorted : (q.map (fun x => p.getD x 0)).Sorted (· ≤ ·) := by
      refine List.Pairwise.map _ ?_ (argsort_sorted key m)
      intro a b hab
      simp only [hkey] at hab
      rcases hab with h | ⟨h, _⟩
      · simp only [] at h
        exact le_of_lt (by exact_mod_cast h)
      · simp only [] at h
        exact le_of_eq (by exact_mod_cast h)
    exact List.eq_of_perm_of_sorted hperm hsorted (List.pairwise_le_range m)
  have hqlen : i < q.length := by rw [hq, argsort_length]; exact hi
  have hmaplen : i < (q.map (fun x => p.getD x 0)).length := by
    rw [List.length_map]; exact hqlen
  have : (q.map (fun x => p.getD x 0)).getD i 0 = i := by
    rw [hL]; exact getD_range_of_lt 0 hi
  rw [getD_map_of_lt _ _ 0 0 hqlen] at this
  exact this

/-! ## Supporting lemmas: runs in sorted lists, `dedup`, counts, `repeatIdx` -/

theorem sorted_run_decomp : ∀ (t : List ℤ) (a : ℤ), (a :: t).Sorted (· ≤ ·) →
    ∃ c t2, a :: t = List.replicate (c + 1) a ++ t2 ∧ t2.Sorted (· ≤ ·) ∧
      ∀ x ∈ t2, a < x := by
  intro t
  induction t with
  | nil =>
    intro a _
    exact ⟨0, [], rfl, List.sorted_nil, by simp⟩
  | cons b t ih =>
    intro a hs
    have hab : a ≤ b := List.rel_of_sorted_cons hs b (List.mem_cons_self b t)
    have hst : (b :: t).Sorted (· ≤ ·) := hs.of_cons
    rcases eq_or_lt_of_le hab with heq | hlt
    · subst heq
      obtain ⟨c, t2, hdec, hs2, hgt⟩ := ih a hst
      refine ⟨c + 1, t2, ?_, hs2, hgt⟩
      rw [List.replicate_succ, List.cons_append, ← hdec]
    · refine ⟨0, b :: t, rfl, hst, ?_⟩
      intro x hx
      rcases List.mem_cons.mp hx with rfl | hx
      · exact hlt
      · exact hlt.trans_le (List.rel_of_sorted_cons hst x hx)

theorem dedup_replicate_append (a : ℤ) (t2 : List ℤ) (ha : a ∉ t2) :
    ∀ c, (List.replicate (c + 1) a ++ t2).dedup = a :: t2.dedup := by
  intro c
  induction c with
  | zero => simpa using List.dedup_cons_of_not_mem ha
  | succ c ih =>
    have hmem : a ∈ List.replicate (c + 1) a ++ t2 := by
      apply List.mem_append_left
      exact List.mem_replicate.mpr ⟨Nat.succ_ne_zero c, rfl⟩
    calc (List.replicate (c + 1 + 1) a ++ t2).dedup
        = (a :: (List.replicate (c + 1) a ++ t2)).dedup := by
          rw [List.replicate_succ, List.cons_append]
      _ = (List.replicate (c + 1) a ++ t2).dedup := List.dedup_cons_of_mem hmem
      _ = a :: t2.dedup := ih

theorem count_replicate_append_self (a : ℤ) (c : ℕ) (t2 : List ℤ) (ha : a ∉ t2) :
    (List.replicate (c + 1) a ++ t2).count a = c + 1 := by
  rw [List.count_append, List.count_replicate_self, List.count_eq_zero_of_not_mem ha]

theorem count_replicate_append_ne (a v : ℤ) (c : ℕ) (t2 : List ℤ) (hv : v ≠ a) :
    (List.replicate (c + 1) a ++ t2).count v = t2.count v := by
  rw [List.count_append, List.count_replicate]
  simp [Ne.symm hv]

theorem getD_replicate_append_left (a z : ℤ) (c : ℕ) (t2 : List ℤ) {i : ℕ}
    (h : i < c + 1) : (List.replicate (c + 1) a ++ t2).getD i z = a := by
  rw [List.getD_eq_getElem?_getD, List.getElem?_append_left, List.getElem?_replicate_of_lt h]
  · rfl
  · rw [List.length_replicate]; exact h

theorem getD_replicate_append_right (a z : ℤ) (c : ℕ) (t2 : List ℤ) {i : ℕ}
    (h : c + 1 ≤ i) :
    (List.replicate (c + 1) a ++ t2).getD i z = t2.getD (i - (c + 1)) z := by
  rw [List.getD_eq_getElem?_getD, List.getElem?_append_right, List.length_replicate,
    List.getD_eq_getElem?_getD]
  rw [List.length_replicate]; exact h

theorem repeatIdx_dedup_counts : ∀ (N : ℕ) (s : List ℤ), s.length ≤ N →
    s.Sorted (· ≤ ·) → ∀ i < s.length,
    repeatIdx (s.dedup.map (fun v => s.count v)) i = s.dedup.indexOf (s.getD i 0) := by
  intro N
  induction N with
  | zero =>
    intro s hlen _ i hi
    exact absurd (lt_of_lt_of_le hi hlen) (Nat.not_lt_zero i)
  | succ N ih =>
    intro s hlen hs i hi
    rcases s with _ | ⟨a, t⟩
    · exact absurd hi (by simp)
    obtain ⟨c, t2, hdec, hs2, hgt⟩ := sorted_run_decomp t a hs
    have ha2 : a ∉ t2 := fun h => lt_irrefl a (hgt a h)
    rw [hdec] at hi ⊢
    have hlens : (List.replicate (c + 1) a ++ t2).length = (c + 1) + t2.length := by
      rw [List.length_append, List.length_replicate]
    have hdedup : (List.replicate (c + 1) a ++ t2).dedup = a :: t2.dedup :=
      dedup_replicate_append a t2 ha2 c
    have hmap : (List.replicate (c + 1) a ++ t2).dedup.map
        (fun v => (List.replicate (c + 1) a ++ t2).count v) =
        (c + 1) :: t2.dedup.map (fun v => t2.count v) := by
      rw [hdedup, List.map_cons, count_replicate_append_self a c t2 ha2]
      congr 1
      apply List.map_congr_left
      intro v hv
      exact count_replicate_append_ne a v c t2 (ne_of_gt (hgt v (List.mem_dedup.mp hv)))
    rw [hmap, hdedup]
    by_cases hic : i < c + 1
    · rw [repeatIdx, if_pos hic, getD_replicate_append_left a 0 c t2 hic,
        List.indexOf_cons_self]
    · push_neg at hic
      rw [repeatIdx, if_neg (not_lt.mpr hic),
        getD_replicate_append_right a 0 c t2 hic]
      have hlt2 : i - (c + 1) < t2.length := by
        rw [hlens] at hi; omega
      have hv : t2.getD (i - (c + 1)) 0 ∈ t2 := getD_mem_of_lt _ _ hlt2
      have hvne : a ≠ t2.getD (i - (c + 1)) 0 := ne_of_lt (hgt _ hv)
      rw [List.indexOf_cons_ne _ hvne]
      have hlen2 : t2.length ≤ N := by
        rw [hdec] at hlen
        rw [hlens] at hlen; omega
      rw [ih t2 hlen2 hs2 (i - (c + 1)) hlt2]

theorem dedup_sorted_lt : ∀ (N : ℕ) (s : List ℤ), s.length ≤ N →
    s.Sorted (· ≤ ·) → s.dedup.Sorted (· < ·) := by
  intro N
  induction N with
  | zero =>
    intro s hlen _
    rw [List.eq_nil_of_length_eq_zero (Nat.le_zero.mp hlen)]
    exact List.sorted_nil
  | succ N ih =>
    intro s hlen hs
    rcases s with _ | ⟨a, t⟩
    · exact List.sorted_nil
    obtain ⟨c, t2, hdec, hs2, hgt⟩ := sorted_run_decomp t a hs
    have ha2 : a ∉ t2 := fun h => lt_irrefl a (hgt a h)
    rw [hdec, dedup_replicate_append a t2 ha2 c]
    rw [List.sorted_cons]
    constructor
    · intro x hx
      exact hgt x (List.mem_dedup.mp hx)
    · apply ih t2 _ hs2
      have : (a :: t).length ≤ N + 1 := hlen
      rw [hdec, List.length_append, List.length_replicate] at this
      omega

/-! ## Supporting lemmas: aligning `np.in1d` indices with `np.isin` masks -/

theorem filter_inter_sorted : ∀ (N : ℕ) (A V : List ℤ), A.length + V.length ≤ N →
    A.Sorted (· < ·) → V.Sorted (· < ·) →
    A.filter (fun x => decide (x ∈ V)) = V.filter (fun x => decide (x ∈ A)) := by
  intro N
  induction N with
  | zero =>
    intro A V hlen _ _
    have hA : A = [] := List.eq_nil_of_length_eq_zero (by omega)
    have hV : V = [] := List.eq_nil_of_length_eq_zero (by omega)
    subst hA; subst hV; rfl
  | succ N ih =>
    intro A V hlen hA hV
    rcases A with _ | ⟨a, Ar⟩
    · simp
    rcases V with _ | ⟨v, Vr⟩
    · simp
    have hlenA : Ar.length + (v :: Vr).length ≤ N := by
      simp only [List.length_cons] at hlen ⊢; omega
    have hlenV : (a :: Ar).length + Vr.length ≤ N := by
      simp only [List.length_cons] at hlen ⊢; omega
    have hlenAV : Ar.length + Vr.length ≤ N := by
      simp only [List.length_cons] at hlen; omega
    rcases lt_trichotomy a v with hav | hav | hav
    · -- a < v : the head of A is in no element of V
      have hanV : a ∉ v :: Vr := by
        intro h
        rcases List.mem_cons.mp h with rfl | h
        · exact lt_irrefl a hav
        · exact lt_asymm hav (List.rel_of_sorted_cons hV a h)
      rw [List.filter_cons_of_neg (by simpa using hanV)]
      have hcongr : (v :: Vr).filter (fun x => decide (x ∈ a :: Ar)) =
          (v :: Vr).filter (fun x => decide (x ∈ Ar)) := by
        apply List.filter_congr
        intro x hx
        have hxa : x ≠ a := by
          intro hxeq
          subst hxeq
          rcases List.mem_cons.mp hx with heq | hmem
          · exact lt_irrefl x (heq ▸ hav)
          · exact lt_asymm hav (List.rel_of_sorted_cons hV x hmem)
        simp [List.mem_cons, hxa]
      rw [hcongr]
      exact ih Ar (v :: Vr) hlenA hA.of_cons hV
    · -- a = v : both heads survive
      subst hav
      rw [List.filter_cons_of_pos (by simp), List.filter_cons_of_pos (by simp)]
      congr 1
      have hcongrA : Ar.filter (fun x => decide (x ∈ a :: Vr)) =
          Ar.filter (fun x => decide (x ∈ Vr)) := by
        apply List.filter_congr
        intro x hx
        have : x ≠ a := ne_of_gt (List.rel_of_sorted_cons hA x hx)
        simp [List.mem_cons, this]
      have hcongrV : Vr.filter (fun x => decide (x ∈ a :: Ar)) =
          Vr.filter (fun x => decide (x ∈ Ar)) := by
        apply List.filter_congr
        intro x hx
        have : x ≠ a := ne_of_gt (List.rel_of_sorted_cons hV x hx)
        simp [List.mem_cons, this]
      rw [hcongrA, hcongrV]
      exact ih Ar Vr hlenAV hA.of_cons hV.of_cons
    · -- v < a : the head of V is in no element of A
      have hvnA : v ∉ a :: Ar := by
        intro h
        rcases List.mem_cons.mp h with rfl | h
        · exact lt_irrefl v hav
        · exact lt_asymm hav (List.rel_of_sorted_cons hA v h)
      have hdrop : (v :: Vr).filter (fun x => decide (x ∈ a :: Ar)) =
          Vr.filter (fun x => decide (x ∈ a :: Ar)) :=
        List.filter_cons_of_neg (by simpa using hvnA)
      have hcongr : (a :: Ar).filter (fun x => decide (x ∈ v :: Vr)) =
          (a :: Ar).filter (fun x => decide (x ∈ Vr)) := by
        apply List.filter_congr
        intro x hx
        have hxv : x ≠ v := by
          intro hxeq
          subst hxeq
          rcases List.mem_cons.mp hx with heq | hmem
          · exact lt_irrefl x (heq ▸ hav)
          · exact lt_asymm hav (List.rel_of_sorted_cons hA x hmem)
        simp [List.mem_cons, hxv]
      rw [hdrop, hcongr]
      exact ih (a :: Ar) Vr hlenV hA hV.of_cons

theorem range_filter_eq_indexOf_map : ∀ (A : List ℤ), A.Nodup → ∀ (p : ℤ → Bool),
    (List.range A.length).filter (fun i => p (A.getD i 0)) =
      (A.filter p).map (fun v => A.indexOf v) := by
  intro A
  induction A with
  | nil =>
    intro _ p
    simp
  | cons a Ar ih =>
    intro hnd p
    have hand : Ar.Nodup := (List.nodup_cons.mp hnd).2
    have hna : a ∉ Ar := (List.nodup_cons.mp hnd).1
    have htail : ((List.range Ar.length).map Nat.succ).filter
        (fun i => p ((a :: Ar).getD i 0)) =
        ((Ar.filter p).map (fun v => Ar.indexOf v)).map Nat.succ := by
      rw [List.filter_map]
      have hcomp : ((fun i => p ((a :: Ar).getD i 0)) ∘ Nat.succ) =
          (fun i => p (Ar.getD i 0)) := by
        funext i
        simp [Function.comp]
      rw [hcomp, ih hand p]
    have hmapidx : (Ar.filter p).map (fun v => (a :: Ar).indexOf v) =
        ((Ar.filter p).map (fun v => Ar.indexOf v)).map Nat.succ := by
      rw [List.map_map]
      apply List.map_congr_left
      intro v hv
      have hvmem : v ∈ Ar := (List.mem_filter.mp hv).1
      have hvne : a ≠ v := fun h => hna (h ▸ hvmem)
      simp only [Function.comp]
      rw [List.indexOf_cons_ne _ hvne]
    rw [List.length_cons, List.range_succ_eq_map]
    by_cases hp : p a
    · rw [List.filter_cons_of_pos (by simpa using hp),
        List.filter_cons_of_pos (by simpa using hp)]
      rw [List.map_cons, List.indexOf_cons_self, htail, hmapidx]
    · rw [List.filter_cons_of_neg (by simpa using hp),
        List.filter_cons_of_neg (by simpa using hp)]
      rw [htail, hmapidx]

theorem range_filter_mem_eq_indexOf_map (A : List ℤ) (hnd : A.Nodup) (V : List ℤ) :
    (List.range A.length).filter (fun i => decide (A.getD i 0 ∈ V)) =
      (A.filter (fun x => decide (x ∈ V))).map (fun v => A.indexOf v) :=
  range_filter_eq_indexOf_map A hnd (fun x => decide (x ∈ V))

theorem assignMasked_spec : ∀ (V : List ℤ) (p : ℤ → Bool) (fv : ℤ → ℕ) (dflt : ℕ),
    assignMasked dflt (V.map p) ((V.filter p).map fv) =
      V.map (fun v => if p v then fv v else dflt) := by
  intro V p fv dflt
  induction V with
  | nil => rfl
  | cons v Vr ih =>
    by_cases hp : p v
    · rw [List.map_cons, List.filter_cons_of_pos (by simpa using hp), List.map_cons,
        List.map_cons]
      simp [assignMasked, hp, ih]
    · rw [List.map_cons, List.filter_cons_of_neg (by simpa using hp), List.map_cons]
      simp [assignMasked, hp, ih]

/-! ## Pointwise characterization of the Parameter Engine -/

theorem computeP_apply (M : CModel) (X : XB) (m : ℕ) (gs : List ℕ)
    (off : ℕ → ℕ → ℚ) (beta U : ℕ → ℕ → ℕ → ℚ) (k i j : ℕ) (hj : j < M.n) :
    computeP M X m gs off beta U k i j =
      M.g k ((∑ t ∈ Finset.range (X.cols k j), X.entry k j i t * beta k j t) +
        U k (repeatIdx gs i) j) * off k i := by
  have hn : 0 < M.n := Nat.lt_of_le_of_lt (Nat.zero_le j) hj
  have hdiv : (k * M.n + j) / M.n = k := by
    rw [Nat.mul_comm, Nat.mul_add_div hn, Nat.div_eq_of_lt hj, Nat.add_zero]
  have hmod : (k * M.n + j) % M.n = j := by
    rw [Nat.mul_comm, Nat.mul_add_mod, Nat.mod_eq_of_lt hj]
  simp only [computeP, hdiv, hmod]

/-! ## Pointwise characterization of the Group Index Resolver -/

theorem computeNewP_apply (M : CModel) (X : XB) (gid : ℕ → ℤ) (mnew : ℕ)
    (off : ℕ → ℕ → ℚ)
    (hA : M.unique_group_id.Pairwise (· < ·))
    (hG : M.num_groups = M.unique_group_id.length)
    (k i j : ℕ) (hi : i < mnew) (hj : j < M.n) :
    computeNewP M X gid mnew off k i j =
      M.g k ((∑ t ∈ Finset.range (X.cols k j), X.entry k j i t * M.beta k j t) +
        (if gid i ∈ M.unique_group_id
         then M.U k (M.unique_group_id.indexOf (gid i)) j
         else 0)) * off k i := by
  simp only [computeNewP]
  set sort_id : List ℕ := argsort gid mnew with hsortid
  set rev : List ℕ := argsort (fun x => ((sort_id.getD x 0 : ℕ) : ℤ)) mnew with hrev
  set sids : List ℤ := sort_id.map gid with hsids
  have hsortlen : sort_id.length = mnew := by
    rw [hsortid]; exact argsort_length gid mnew
  have his : rev.getD i 0 < mnew := by
    rw [hrev]; exact argsort_getD_lt _ hi
  have hinv : sort_id.getD (rev.getD i 0) 0 = i := by
    rw [hrev]
    exact argsort_nat_inverse sort_id (by rw [hsortid]; exact argsort_perm gid mnew) hi
  have hsidslen : sids.length = mnew := by
    rw [hsids, List.length_map, hsortlen]
  have hsorted : sids.Sorted (· ≤ ·) := by
    rw [hsids, hsortid]
    exact sorted_map_of_sorted_keyOrder (argsort_sorted gid mnew)
  have hpres : npUniqueVals sids = sids.dedup := by
    unfold npUniqueVals
    rw [List.Sorted.insertionSort_eq hsorted]
  have hgd : sids.getD (rev.getD i 0) 0 = gid i := by
    rw [hsids, getD_map_of_lt gid sort_id 0 0 (by rw [hsortlen]; exact his), hinv]
  have hmem : gid i ∈ sids := by
    rw [← hgd]
    exact getD_mem_of_lt _ _ (by rw [hsidslen]; exact his)
  have hblock : repeatIdx (sids.dedup.map (fun v => sids.count v)) (rev.getD i 0) =
      sids.dedup.indexOf (gid i) := by
    rw [← hgd]
    exact repeatIdx_dedup_counts sids.length sids le_rfl hsorted _
      (by rw [hsidslen]; exact his)
  have hAnd : M.unique_group_id.Nodup := hA.imp (fun h => ne_of_lt h)
  have hpres_sorted : sids.dedup.Sorted (· < ·) :=
    dedup_sorted_lt sids.length sids le_rfl hsorted
  have hindices : (List.range M.unique_group_id.length).filter
      (fun a => decide (M.unique_group_id.getD a 0 ∈ sids.dedup)) =
      (sids.dedup.filter (fun x => decide (x ∈ M.unique_group_id))).map
        (fun v => M.unique_group_id.indexOf v) := by
    rw [range_filter_mem_eq_indexOf_map M.unique_group_id hAnd sids.dedup,
      filter_inter_sorted (M.unique_group_id.length + sids.dedup.length)
        M.unique_group_id sids.dedup le_rfl hA hpres_sorted]
  have hiu : assignMasked M.num_groups
      (sids.dedup.map (fun v => decide (v ∈ M.unique_group_id)))
      ((List.range M.unique_group_id.length).filter
        (fun a => decide (M.unique_group_id.getD a 0 ∈ sids.dedup))) =
      sids.dedup.map (fun v => if decide (v ∈ M.unique_group_id)
        then M.unique_group_id.indexOf v else M.num_groups) := by
    rw [hindices]
    exact assignMasked_spec sids.dedup _ _ M.num_groups
  have hq : sids.dedup.indexOf (gid i) < sids.dedup.length :=
    List.indexOf_lt_length.mpr (List.mem_dedup.mpr hmem)
  have hqv : sids.dedup.getD (sids.dedup.indexOf (gid i)) 0 = gid i := by
    rw [getD_of_lt _ _ hq]
    exact List.indexOf_get hq
  have hgetiu : (sids.dedup.map (fun v => if decide (v ∈ M.unique_group_id)
      then M.unique_group_id.indexOf v else M.num_groups)).getD
        (sids.dedup.indexOf (gid i)) 0 =
      if decide (gid i ∈ M.unique_group_id)
      then M.unique_group_id.indexOf (gid i) else M.num_groups := by
    rw [getD_map_of_lt _ _ 0 0 hq, hqv]
  rw [computeP_apply M _ mnew _ _ M.beta _ k (rev.getD i 0) j hj]
  simp only [hpres, hinv, hblock, hiu, hgetiu]
  by_cases hmemA : gid i ∈ M.unique_group_id
  · have hlt : M.unique_group_id.indexOf (gid i) < M.num_groups := by
      rw [hG]
      exact List.indexOf_lt_length.mpr hmemA
    simp [hmemA, hlt]
  · simp [hmemA]

/-! ## Claim theorems -/

/-- C1: `compute_new_P` maps each new-data group id that equals a fit-time
unique group id to that group's fitted row of `U` (row `indexOf` in
`unique_group_id`), maps every unseen group id to the synthetic zero row
appended at index `num_groups`, and returns the parameter rows in the
caller's original row order: the row for input index `i` is the
fixed-effects linear predictor of row `i` plus its own group's random
effect (zero when the group is unseen), link-transformed and scaled by
offset. -/
theorem C1_computeNewP_group_resolution (M : CModel) (X : XB) (gid : ℕ → ℤ)
    (mnew : ℕ) (off : ℕ → ℕ → ℚ)
    (hA : M.unique_group_id.Pairwise (· < ·))
    (hG : M.num_groups = M.unique_group_id.length)
    (k i j : ℕ) (hi : i < mnew) (hj : j < M.n) :
    computeNewP M X gid mnew off k i j =
      M.g k ((∑ t ∈ Finset.range (X.cols k j), X.entry k j i t * M.beta k j t) +
        (if gid i ∈ M.unique_group_id
         then M.U k (M.unique_group_id.indexOf (gid i)) j
         else 0)) * off k i :=
  computeNewP_apply M X gid mnew off hA hG k i j hi hj

/-- C2: `compute_P` returns the tensor whose `(k, i, j)` entry is
`offset[k][i]` times `g[k]` applied to the linear predictor
`X[k][j][i] · beta[k][j]` plus the row of `U[k]` for individual `i`'s group;
the offset multiplies after the link transform. -/
theorem C2_computeP_pointwise (M : CModel) (X : XB) (m : ℕ) (gs : List ℕ)
    (off : ℕ → ℕ → ℚ) (beta U : ℕ → ℕ → ℕ → ℚ) (k i j : ℕ)
    (hpart : gs.sum = m) (hk : k < M.l) (hi : i < m) (hj : j < M.n) :
    computeP M X m gs off beta U k i j =
      off k i * M.g k ((∑ t ∈ Finset.range (X.cols k j),
        X.entry k j i t * beta k j t) + U k (repeatIdx gs i) j) := by
  rw [computeP_apply M X m gs off beta U k i j hj, mul_comm]

/-- C3: `neg_log_likelihood` with all three arguments supplied returns the
mean over the `m` individuals of the weighted per-individual sum over
outcomes of `f(Y, P)` — `P` computed by `compute_P` from the given `beta`
and `U` — plus, for each parameter `k`, one half times the mean over groups
of the quadratic form `(U[k] · pinv(D[k])) · U[k]` summed across outcomes;
and omitted arguments default to the current fitted values. -/
theorem C3_negLogLikelihood_decomposition (M : CModel)
    (pinv : (ℕ → ℕ → ℚ) → (ℕ → ℕ → ℚ)) (beta U D : ℕ → ℕ → ℕ → ℚ) :
    (negLogLikelihood M pinv (some beta) (some U) (some D) =
      (∑ i ∈ Finset.range M.m, ∑ j ∈ Finset.range M.n,
        M.f (M.Y i j)
          (fun k => computeP M M.X M.m M.group_sizes M.offset beta U k i j) *
          M.W i j) / (M.m : ℚ) +
      ∑ k ∈ Finset.range M.l, (1 / 2) *
        ((∑ a ∈ Finset.range M.num_groups, ∑ j ∈ Finset.range M.n,
          (∑ j2 ∈ Finset.range M.n, U k a j2 * pinv (D k) j2 j) * U k a j) /
          (M.num_groups : ℚ))) ∧
    negLogLikelihood M pinv none none none =
      negLogLikelihood M pinv (some M.beta) (some M.U) (some M.D) :=
  ⟨rfl, rfl⟩

/-- C6 (code bug): calling `optimize_params` with `optimize_beta=False`,
`optimize_U=False` and `compute_D=False` does NOT succeed for any positive
`max_iters`: the first iteration evaluates
`error / (optimize_beta + optimize_U + compute_D)` with an integer
denominator of zero, which raises `ZeroDivisionError`, regardless of the
sub-minimizers, the error metric, the tolerance, or the model state. -/
theorem C6_optimizeParams_all_disabled_zero_division (M : CModel)
    (pinv : (ℕ → ℕ → ℚ) → (ℕ → ℕ → ℚ)) (fB fU fD : CModel → CModel)
    (eB eU eD : CModel → CModel → ℚ) (iters : ℕ) (rel_tol : Option ℚ) :
    optimizeParams M pinv fB fU fD eB eU eD (iters + 1) false false false rel_tol =
      .error "ZeroDivisionError: division by zero" := by
  simp [optimizeParams, optimizeParamsLoop]

/-- C8: on a model fit without intercept augmentation (`add_intercepts=False`),
`predict` still unconditionally prepends a constant-1 column, so the
`check_new_X` shape check against the fit-time column counts `d` fails even
when the caller passes covariates of exactly the fit-time shape
(`cols k j = d k j` would require `d k j + 1 = d k j`). -/
theorem C8_predict_shape_check_fails (M : CModel) (X : XB) (mnew : ℕ)
    (hl : 0 < M.l) (hn : 0 < M.n) (hai : M.add_intercepts = false)
    (hshape : ∀ k, k < M.l → ∀ j, j < M.n → X.cols k j = M.d k j) :
    checkNewX M (normalizeX M.ci M.X_mean M.X_std (interceptX X)) mnew = false := by
  unfold checkNewX
  rw [decide_eq_false_iff_not]
  intro h
  obtain ⟨_, hc⟩ := h 0 hl 0 hn
  have hcols : X.cols 0 0 + 1 = M.d 0 0 := by
    simpa [normalizeX, interceptX] using hc
  rw [hshape 0 hl 0 hn] at hcols
  omega

/-- C9: `compute_new_P` and `predict` leave every field of the fitted model
state unchanged; in the source they only read `self` (new-data group ids,
offsets and covariates are copied before sorting, and the zero row is
appended to a fresh copy of `U` by `np.append`), which the state-passing
embeddings `computeNewPS` and `predictS` record by returning the input
state. -/
theorem C9_prediction_preserves_state (M : CModel) (X : XB) (gid : ℕ → ℤ)
    (mnew mnew2 : ℕ) (off : ℕ → ℕ → ℚ) (gidArg : Option (ℕ → ℤ))
    (offArg : Option (ℕ → Option (ℕ → ℚ))) :
    (computeNewPS M X gid mnew off).1 = M ∧
    (predictS M X mnew2 gidArg offArg).1 = M ∧
    (computeNewPS M X gid mnew off).1.beta = M.beta ∧
    (computeNewPS M X gid mnew off).1.U = M.U ∧
    (computeNewPS M X gid mnew off).1.D = M.D ∧
    (computeNewPS M X gid mnew off).1.P = M.P ∧
    (computeNewPS M X gid mnew off).1.X = M.X ∧
    (computeNewPS M X gid mnew off).1.group_id = M.group_id ∧
    (computeNewPS M X gid mnew off).1.unique_group_id = M.unique_group_id ∧
    (computeNewPS M X gid mnew off).1.group_sizes = M.group_sizes ∧
    (predictS M X mnew2 gidArg offArg).1.beta = M.beta ∧
    (predictS M X mnew2 gidArg offArg).1.U = M.U ∧
    (predictS M X mnew2 gidArg offArg).1.D = M.D ∧
    (predictS M X mnew2 gidArg offArg).1.P = M.P :=
  ⟨rfl, rfl, rfl, rfl, rfl, rfl, rfl, rfl, rfl, rfl, rfl, rfl, rfl, rfl⟩

theorem argsort_cast_eq_range (m : ℕ) :
    argsort (fun i => (i : ℤ)) m = List.range m := by
  have h1 : (argsort (fun i => (i : ℤ)) m).Sorted (· ≤ ·) := by
    refine List.Pairwise.imp ?_ (argsort_sorted (fun i => (i : ℤ)) m)
    intro a b hab
    rcases hab with h | ⟨_, h⟩
    · exact le_of_lt (Nat.cast_lt.mp h)
    · exact h
  exact List.eq_of_perm_of_sorted (argsort_perm (fun i => (i : ℤ)) m) h1
    (List.pairwise_le_range m)

theorem range_cast_sorted_le (m : ℕ) :
    ((List.range m).map (fun i : ℕ => (i : ℤ))).Sorted (· ≤ ·) := by
  refine List.Pairwise.map _ ?_ (List.pairwise_le_range m)
  intro a b hab
  exact Nat.cast_le.mpr hab

theorem range_cast_nodup (m : ℕ) :
    ((List.range m).map (fun i : ℕ => (i : ℤ))).Nodup := by
  refine List.Nodup.map ?_ (List.nodup_range m)
  exact fun a b hab => Nat.cast_injective hab

theorem npUniqueVals_range_cast (m : ℕ) :
    npUniqueVals ((List.range m).map (fun i : ℕ => (i : ℤ))) =
      (List.range m).map (fun i : ℕ => (i : ℤ)) := by
  unfold npUniqueVals
  rw [List.Sorted.insertionSort_eq (range_cast_sorted_le m)]
  exact (range_cast_nodup m).dedup

theorem map_count_nodup_eq_replicate (l : List ℤ) (hnd : l.Nodup) :
    l.map (fun v => l.count v) = List.replicate l.length 1 := by
  apply List.eq_replicate_iff.mpr
  constructor
  · rw [List.length_map]
  · intro b hb
    obtain ⟨v, hv, rfl⟩ := List.mem_map.mp hb
    exact List.count_eq_one_of_mem hnd hv

/-- C10: constructing a model without `group_id` places every individual in
its own singleton group: the group ids default to `0..m-1`, so after the
(identity) sort there are `m` unique groups, every group size is `1`, each
individual keeps its own index as group id, and the random-effect tensor
`U = np.zeros((l, num_groups, n))` is the zero tensor with `num_groups = m`
rows per parameter (shape `l × m × n`). -/
theorem C10_default_group_id_singletons (m n l : ℕ) (d0 : ℕ → ℕ → ℕ)
    (Y : ℕ → ℕ → ℚ) (X0 : XB) (g : ℕ → ℚ → ℚ) (f : ℚ → (ℕ → ℚ) → ℚ)
    (offArg : Option (ℕ → Option (ℕ → ℚ))) (wArg : Option (ℕ → ℕ → ℚ))
    (ai : Bool) :
    (mkModel m n l d0 Y X0 g f none offArg wArg ai).num_groups = m ∧
    (mkModel m n l d0 Y X0 g f none offArg wArg ai).group_sizes =
      List.replicate m 1 ∧
    (mkModel m n l d0 Y X0 g f none offArg wArg ai).unique_group_id =
      (List.range m).map (fun i : ℕ => (i : ℤ)) ∧
    (∀ i, i < m → (mkModel m n l d0 Y X0 g f none offArg wArg ai).group_id i =
      (i : ℤ)) ∧
    (mkModel m n l d0 Y X0 g f none offArg wArg ai).U =
      fun _ _ _ => (0 : ℚ) := by
  simp only [mkModel, argsort_cast_eq_range]
  rw [npUniqueVals_range_cast m]
  refine ⟨?_, ?_, rfl, ?_, trivial⟩
  · rw [List.length_map, List.length_range]
  · rw [map_count_nodup_eq_replicate _ (range_cast_nodup m), List.length_map,
      List.length_range]
  · intro i hi
    rw [getD_range_of_lt 0 hi]

/-- C7: round trip.  On a model fit with intercept augmentation, running the
covariate pipeline of `predict` (re-add the intercept, re-apply the stored
normalization) on the training covariates-sans-intercept reproduces the
stored design `M.X`, and `compute_new_P` with the training group ids and
offsets then reproduces the training-time parameter matrix `M.P` exactly.
The hypotheses are the invariants `__init__` establishes (sorted group ids,
`unique_group_id`/`group_sizes` derived by `np.unique`) together with
`M.P` being the fitted parameter matrix from `update_params`. -/
theorem C7_predict_roundtrip_P (M : CModel) (Xraw : XB)
    (hX : normalizeX M.ci M.X_mean M.X_std (interceptX Xraw) = M.X)
    (hai : M.add_intercepts = true)
    (hA : M.unique_group_id.Pairwise (· < ·))
    (hG : M.num_groups = M.unique_group_id.length)
    (hsorted : ((List.range M.m).map M.group_id).Sorted (· ≤ ·))
    (hu : M.unique_group_id = ((List.range M.m).map M.group_id).dedup)
    (hsz : M.group_sizes = ((List.range M.m).map M.group_id).dedup.map
      (fun v => ((List.range M.m).map M.group_id).count v))
    (hP : ∀ k i j, M.P k i j =
      computeP M M.X M.m M.group_sizes M.offset M.beta M.U k i j)
    (k i j : ℕ) (hi : i < M.m) (hj : j < M.n) :
    computeNewP M (normalizeX M.ci M.X_mean M.X_std (interceptX Xraw))
      M.group_id M.m M.offset k i j = M.P k i j := by
  rw [hX, computeNewP_apply M M.X M.group_id M.m M.offset hA hG k i j hi hj,
    hP k i j, computeP_apply M M.X M.m M.group_sizes M.offset M.beta M.U k i j hj]
  have hslen : ((List.range M.m).map M.group_id).length = M.m := by
    rw [List.length_map, List.length_range]
  have hgd : ((List.range M.m).map M.group_id).getD i 0 = M.group_id i := by
    rw [getD_map_of_lt M.group_id (List.range M.m) 0 0
      (by rw [List.length_range]; exact hi), getD_range_of_lt 0 hi]
  have hmem : M.group_id i ∈ (List.range M.m).map M.group_id := by
    rw [← hgd]
    exact getD_mem_of_lt _ _ (by rw [hslen]; exact hi)
  have hmemA : M.group_id i ∈ M.unique_group_id := by
    rw [hu]
    exact List.mem_dedup.mpr hmem
  rw [if_pos hmemA]
  have hblock := repeatIdx_dedup_counts ((List.range M.m).map M.group_id).length
    ((List.range M.m).map M.group_id) le_rfl hsorted i (by rw [hslen]; exact hi)
  rw [hgd] at hblock
  rw [hsz, hblock, hu]

/-! ## Concrete instances used by the witnesses -/

/-- A nontrivial inverse link, so that witnesses are sensitive to the order
of link transform and offset multiplication. -/
def gW : ℕ → ℚ → ℚ := fun _ q => q + 1

/-- New-data covariates for the prediction witnesses: three rows, one column,
entry of row `i` equal to `i`. -/
def XW : XB := ⟨3, fun _ _ => 1, fun _ _ i _ => (i : ℚ)⟩

/-- A small fitted model: two individuals in groups `5` and `9`. -/
def MW : CModel where
  m := 2
  n := 1
  l := 1
  d := fun _ _ => 1
  Y := fun _ _ => 0
  X := ⟨2, fun _ _ => 1, fun _ _ _ _ => 1⟩
  W := fun _ _ => 1
  offset := fun _ _ => 1
  group_id := fun i => if i = 0 then 5 else 9
  unique_group_id := [5, 9]
  group_sizes := [1, 1]
  num_groups := 2
  beta := fun _ _ _ => 2
  U := fun _ a _ => if a = 0 then 10 else 20
  D := fun _ a b => if a = b then 1 else 0
  P := fun _ _ _ => 0
  g := gW
  f := fun y p => y + p 0
  add_intercepts := false
  ci := 0
  X_mean := fun _ _ _ => 0
  X_std := fun _ _ _ => 1
  meanOutcome := none

/-- New-data group ids `[9, 7, 5]`: unsorted, with the middle group unseen
at fit time. -/
def gidW : ℕ → ℤ := fun i => if i = 0 then 9 else if i = 1 then 7 else 5

/-- New-data offsets distinguishing the rows. -/
def offW : ℕ → ℕ → ℚ := fun _ i => (i : ℚ) + 1

/-- Witness for C1 at a seen group (row 0, group 9) and at a group unseen at
fit time (row 1, group 7). -/
theorem C1_computeNewP_group_resolution_witness :
    (MW.unique_group_id.Pairwise (· < ·) ∧
      MW.num_groups = MW.unique_group_id.length ∧
      (0 : ℕ) < 3 ∧ (1 : ℕ) < 3 ∧ (0 : ℕ) < MW.n) ∧
    computeNewP MW XW gidW 3 offW 0 0 0 =
      MW.g 0 ((∑ t ∈ Finset.range (XW.cols 0 0), XW.entry 0 0 0 t * MW.beta 0 0 t) +
        (if gidW 0 ∈ MW.unique_group_id
         then MW.U 0 (MW.unique_group_id.indexOf (gidW 0)) 0
         else 0)) * offW 0 0 ∧
    computeNewP MW XW gidW 3 offW 0 1 0 =
      MW.g 0 ((∑ t ∈ Finset.range (XW.cols 0 0), XW.entry 0 0 1 t * MW.beta 0 0 t) +
        (if gidW 1 ∈ MW.unique_group_id
         then MW.U 0 (MW.unique_group_id.indexOf (gidW 1)) 0
         else 0)) * offW 0 1 :=
  ⟨⟨by decide, by decide, by decide, by decide, by decide⟩,
   C1_computeNewP_group_resolution MW XW gidW 3 offW (by decide) (by decide)
     0 0 0 (by decide) (by decide),
   C1_computeNewP_group_resolution MW XW gidW 3 offW (by decide) (by decide)
     0 1 0 (by decide) (by decide)⟩

/-- Witness for C2 on a two-group partition of three individuals. -/
theorem C2_computeP_pointwise_witness :
    (([2, 1] : List ℕ).sum = 3 ∧ (0 : ℕ) < MW.l ∧ (2 : ℕ) < 3 ∧ (0 : ℕ) < MW.n) ∧
    computeP MW XW 3 [2, 1] offW MW.beta MW.U 0 2 0 =
      offW 0 2 * MW.g 0 ((∑ t ∈ Finset.range (XW.cols 0 0),
        XW.entry 0 0 2 t * MW.beta 0 0 t) + MW.U 0 (repeatIdx [2, 1] 2) 0) :=
  ⟨⟨by decide, by decide, by decide, by decide⟩,
   C2_computeP_pointwise MW XW 3 [2, 1] offW MW.beta MW.U 0 2 0
     (by decide) (by decide) (by decide) (by decide)⟩

/-- Training covariates (sans intercept) for the round-trip witness. -/
def Xraw7 : XB := ⟨2, fun _ _ => 1, fun _ _ i _ => (i : ℚ) + 3⟩

/-- The stored design of the round-trip witness model: the intercept re-added
and the (disabled) normalization applied to `Xraw7`. -/
def MX7 : XB := normalizeX 1 (fun _ _ _ => 0) (fun _ _ _ => 1) (interceptX Xraw7)

/-- Round-trip witness model before fitting `P`. -/
def MW7base : CModel where
  m := 2
  n := 1
  l := 1
  d := fun _ _ => 2
  Y := fun _ _ => 0
  X := MX7
  W := fun _ _ => 1
  offset := fun _ _ => 1
  group_id := fun i => if i = 0 then 4 else 7
  unique_group_id := [4, 7]
  group_sizes := [1, 1]
  num_groups := 2
  beta := fun _ _ t => if t = 0 then 3 else 1
  U := fun _ a _ => if a = 0 then 10 else 20
  D := fun _ a b => if a = b then 1 else 0
  P := fun _ _ _ => 0
  g := gW
  f := fun y p => y + p 0
  add_intercepts := true
  ci := 1
  X_mean := fun _ _ _ => 0
  X_std := fun _ _ _ => 1
  meanOutcome := none

/-- Round-trip witness model with the fitted parameter matrix installed, as
`update_params` does after optimization. -/
def MW7 : CModel :=
  { MW7base with
    P := computeP MW7base MW7base.X MW7base.m MW7base.group_sizes MW7base.offset
      MW7base.beta MW7base.U }

/-- Witness for C7: predicting on the training data of `MW7` reproduces the
fitted `P` at row 1. -/
theorem C7_predict_roundtrip_P_witness :
    (normalizeX MW7.ci MW7.X_mean MW7.X_std (interceptX Xraw7) = MW7.X ∧
     MW7.add_intercepts = true ∧
     MW7.unique_group_id.Pairwise (· < ·) ∧
     MW7.num_groups = MW7.unique_group_id.length ∧
     ((List.range MW7.m).map MW7.group_id).Sorted (· ≤ ·) ∧
     MW7.unique_group_id = ((List.range MW7.m).map MW7.group_id).dedup ∧
     MW7.group_sizes = ((List.range MW7.m).map MW7.group_id).dedup.map
       (fun v => ((List.range MW7.m).map MW7.group_id).count v) ∧
     (∀ k i j, MW7.P k i j = computeP MW7 MW7.X MW7.m MW7.group_sizes
       MW7.offset MW7.beta MW7.U k i j) ∧
     (1 : ℕ) < MW7.m ∧ (0 : ℕ) < MW7.n) ∧
    computeNewP MW7 (normalizeX MW7.ci MW7.X_mean MW7.X_std (interceptX Xraw7))
      MW7.group_id MW7.m MW7.offset 0 1 0 = MW7.P 0 1 0 :=
  ⟨⟨rfl, rfl, by decide, by decide, by decide, by decide, by decide,
    fun k i j => by rfl, by decide, by decide⟩,
   C7_predict_roundtrip_P MW7 Xraw7 rfl rfl (by decide) (by decide) (by decide)
     (by decide) (by decide) (fun k i j => by rfl) 0 1 0 (by decide) (by decide)⟩

/-- Fit-time-shaped covariates for the C8 witness (`cols = d = 1` column). -/
def XW8 : XB := ⟨3, fun _ _ => 1, fun _ _ _ _ => 2⟩

/-- Witness for C8: `MW` was built with `add_intercepts = false`, the caller
passes covariates of exactly the fit-time shape, and the prediction-time
shape check rejects them. -/
theorem C8_predict_shape_check_fails_witness :
    ((0 : ℕ) < MW.l ∧ (0 : ℕ) < MW.n ∧ MW.add_intercepts = false ∧
      (∀ k, k < MW.l → ∀ j, j < MW.n → XW8.cols k j = MW.d k j)) ∧
    checkNewX MW (normalizeX MW.ci MW.X_mean MW.X_std (interceptX XW8)) 3 = false :=
  ⟨⟨by decide, by decide, rfl, by decide⟩,
   C8_predict_shape_check_fails MW XW8 3 (by decide) (by decide) rfl (by decide)⟩

end CCount
